import Mathlib

/-!
Verification development for the 3D-Spinny repository (src/main.py,
src/shapes.py).  The shape model of `shapes.py` is embedded over exact
rationals (the operations exercised by the claims — component-wise
arithmetic, exact equality, determinant tests — are field operations, so
ℚ models the program's numeric values faithfully and keeps every
definition executable).  The camera / projection layer of `main.py` is
embedded over ℝ because it uses `sin`, `cos`, `atan` and square roots.
-/

namespace Spinny

/-- Three-component vector with exact rational components, modelling the
`Vector` values manipulated by `shapes.py`.
Modelled from the spec: the linear-algebra module (`matrix.py`) is not
under `src/`; the spec describes a vector as a fixed-length tuple of
numbers with component-wise arithmetic and equality compared by
component values. -/
@[ext]
structure Vec3 where
  x : ℚ
  y : ℚ
  z : ℚ
  deriving DecidableEq, Repr

/-- Modelled from the spec: component-wise vector addition. -/
instance : Add Vec3 := ⟨fun a b => ⟨a.x + b.x, a.y + b.y, a.z + b.z⟩⟩

/-- Modelled from the spec: component-wise vector subtraction. -/
instance : Sub Vec3 := ⟨fun a b => ⟨a.x - b.x, a.y - b.y, a.z - b.z⟩⟩

/-- Modelled from the spec: dot product of two 3-vectors (used for
row-by-column matrix-vector multiplication). -/
def Vec3.dot (a b : Vec3) : ℚ := a.x * b.x + a.y * b.y + a.z * b.z

/-- Three-by-three matrix, stored as its ordered rows, modelling the
`Matrix` values used by `shapes.py`.
Modelled from the spec: `matrix.py` is not under `src/`; the spec
describes a matrix as constructed from ordered rows. -/
structure Mat3 where
  r1 : Vec3
  r2 : Vec3
  r3 : Vec3
  deriving DecidableEq, Repr

/-- Modelled from the spec: matrix-vector multiplication — for each row,
the dot product of that row with the vector. -/
def Mat3.mulVec (m : Mat3) (v : Vec3) : Vec3 :=
  ⟨m.r1.dot v, m.r2.dot v, m.r3.dot v⟩

/-- Modelled from the spec: determinant of a 3×3 matrix by cofactor
expansion along the first row,
`det = a(ei − fh) − b(di − fg) + c(dh − eg)` for rows
`(a,b,c), (d,e,f), (g,h,i)`. -/
def Mat3.det (m : Mat3) : ℚ :=
  m.r1.x * (m.r2.y * m.r3.z - m.r2.z * m.r3.y)
    - m.r1.y * (m.r2.x * m.r3.z - m.r2.z * m.r3.x)
    + m.r1.z * (m.r2.x * m.r3.y - m.r2.y * m.r3.x)

/-- `v0 = Vector(0,0,0)` from `shapes.py`. -/
def v0 : Vec3 := ⟨0, 0, 0⟩

/-- `m1 = Matrix((1,0,0),(0,1,0),(0,0,1))` from `shapes.py`. -/
def m1 : Mat3 := ⟨⟨1, 0, 0⟩, ⟨0, 1, 0⟩, ⟨0, 0, 1⟩⟩

/-- An edge of a shape: a Python `set` of point indices (`shapes.py`
stores each edge as an unordered pair such as `{0,1}`; after `optimise`
both indices of a pair can coincide, leaving a one-element set). -/
abbrev Edge := Finset ℕ

/-- The mutable state of a `Shape` instance in `shapes.py`: its list of
points and its list of edges (`self.points` and `self.lines`). -/
@[ext]
structure Shape3 where
  points : List Vec3
  lines : List Edge
  deriving DecidableEq

/-- `Shape.move_to` from `shapes.py`:
`self.points = [v - self.cur + pos for v in self.points]` where
`self.cur = self.points[0]`.  (Python indexes `points[0]`; every shape
this program builds has at least one point, and the claims about
`move_to` assume a non-empty point list, so the `headD` default is never
read there.) -/
def Shape3.move_to (s : Shape3) (pos : Vec3) : Shape3 :=
  { s with points := s.points.map (fun v => v - s.points.headD v0 + pos) }

/-- `Shape.move_by` from `shapes.py`: `self.points = [v + pos for v in self.points]`. -/
def Shape3.move_by (s : Shape3) (pos : Vec3) : Shape3 :=
  { s with points := s.points.map (fun v => v + pos) }

/-- The inner loop of `Shape.optimise` from `shapes.py`:
`for j, w in enumerate(seen_vects): if v.value == w.value: ... break` —
the index of the first element of the list equal to `v`, if any. -/
def firstIdx : List Vec3 → Vec3 → Option ℕ
  | [], _ => none
  | w :: ws, v => if w = v then some 0 else (firstIdx ws v).map (· + 1)

/-- The scanning loop of `Shape.optimise` from `shapes.py`, with state
`(seen_vects, changes, offset)`:
for each point `v` (at global index `i = ch.length`, since `changes`
gains exactly one entry per point), if `v` equals a previously seen
vector at index `j` then record `changes[i] = j` and bump `offset`,
otherwise append `v` to `seen_vects` and record
`changes[i] = i - offset`.  Returns the final `(seen_vects, changes)`
with `changes` as the list of values `changes[0], changes[1], ...`. -/
def scanPoints : List Vec3 → List Vec3 → List ℕ → ℕ → List Vec3 × List ℕ
  | [], seen, ch, _ => (seen, ch)
  | v :: rest, seen, ch, off =>
    match firstIdx seen v with
    | some j => scanPoints rest seen (ch ++ [j]) (off + 1)
    | none => scanPoints rest (seen ++ [v]) (ch ++ [ch.length - off]) off

/-- The duplicate-removal loop of `Shape.optimise` from `shapes.py`
(`for l in self.lines: if l not in new_lines: new_lines.append(l)`),
with the accumulator `new_lines` explicit.  Stated generically: the same
first-occurrence fold also describes which points the scanning loop
retains. -/
def keepFirstFrom {α : Type} [DecidableEq α] : List α → List α → List α
  | [], acc => acc
  | l :: rest, acc => keepFirstFrom rest (if l ∈ acc then acc else acc ++ [l])

/-- First occurrences of the distinct values of a list, in order
(the fold above started with an empty accumulator). -/
def keepFirst {α : Type} [DecidableEq α] (ls : List α) : List α := keepFirstFrom ls []

/-- `Shape.optimise` from `shapes.py`: scan the points building
`seen_vects` and the old-index-to-new-index `changes` map, replace the
point list by `seen_vects`, rewrite every edge through `changes`
(`{changes[i], changes[j]}` — a set image), then drop duplicate edges
keeping first occurrences.  This is the total computation on the states
where Python's edge rewrite cannot fail; `Shape3.optimiseE` below also
models the two failure modes of the rewrite comprehension (ValueError
on an edge that is not a two-element set, KeyError on an out-of-range
index), and agrees with this definition whenever neither occurs. -/
def Shape3.optimise (s : Shape3) : Shape3 :=
  let sc := scanPoints s.points [] [] 0
  { points := sc.1,
    lines := keepFirst (s.lines.map (fun e => e.image (fun i => sc.2.getD i 0))) }

/-- `Shape.transform` from `shapes.py`: replace every point by
`m * point`; if `m.det == 0`, run `optimise` afterwards. -/
def Shape3.transform (s : Shape3) (m : Mat3) : Shape3 :=
  let s' : Shape3 := { s with points := s.points.map (fun v => m.mulVec v) }
  if m.det = 0 then s'.optimise else s'

/-- `Cube.DEFAULT_POINTS` and `Cube.LINES` from `shapes.py`. -/
def cubeDefault : Shape3 :=
  { points := [⟨0,0,0⟩, ⟨0,0,1⟩, ⟨1,0,1⟩, ⟨1,0,0⟩, ⟨0,1,0⟩, ⟨0,1,1⟩, ⟨1,1,1⟩, ⟨1,1,0⟩],
    lines := [{0,1}, {1,2}, {2,3}, {3,0},
              {4,5}, {5,6}, {6,7}, {7,4},
              {0,4}, {1,5}, {2,6}, {3,7}] }

/-- `SquarePyramid.DEFAULT_POINTS` and `SquarePyramid.LINES` from `shapes.py`. -/
def pyramidDefault : Shape3 :=
  { points := [⟨0,0,0⟩, ⟨0,0,1⟩, ⟨1,0,1⟩, ⟨1,0,0⟩, ⟨1/2, 1, 1/2⟩],
    lines := [{0,1}, {1,2}, {2,3}, {3,0},
              {0,4}, {1,4}, {2,4}, {3,4}] }

/-- `Shape.__init__` from `shapes.py`: reset to the default geometry,
then `move_to(shift)`, then `transform(trans)`. -/
def mkShape (base : Shape3) (shift : Vec3) (trans : Mat3) : Shape3 :=
  (base.move_to shift).transform trans

/-- `Cube(shift, trans)` from `shapes.py`. -/
def Cube (shift : Vec3) (trans : Mat3) : Shape3 :=
  mkShape cubeDefault shift trans

/-- `SquarePyramid(shift, trans)` from `shapes.py`. -/
def SquarePyramid (shift : Vec3) (trans : Mat3) : Shape3 :=
  mkShape pyramidDefault shift trans

/-- One iteration of the child-concatenation loop of
`ShapeCombination.__init__` from `shapes.py`: append the child's points
and its edges with both indices offset by the current point count
(`offset = len(self.points)`).  Python unpacks each child edge with
`for i1,i2 in shape.lines`, which would raise a ValueError on a child
edge that is not a two-element set; the claims only apply this to
children whose edges are two-element sets, where the set image below is
the same computation. -/
def combineStep (acc c : Shape3) : Shape3 :=
  { points := acc.points ++ c.points,
    lines := acc.lines ++ c.lines.map (fun e => e.image (· + acc.points.length)) }

/-- The child-concatenation loop of `ShapeCombination.__init__` from
`shapes.py`: starting from the inherited defaults
(`points = [v0]`, `lines = []`), append each child's points and its
edges with both indices offset by the current point count. -/
def combineChildren (shapes : List Shape3) : Shape3 :=
  shapes.foldl combineStep { points := [v0], lines := [] }

/-- `ShapeCombination(*shapes, shift, trans)` from `shapes.py`:
concatenate the children with offsets, `move_to(shift)`,
`transform(trans)`, then always `optimise()`. -/
def ShapeCombination (shapes : List Shape3) (shift : Vec3) (trans : Mat3) : Shape3 :=
  (mkShape (combineChildren shapes) shift trans).optimise

/-- The mutating operations a shape exposes (`shapes.py`). -/
inductive Op where
  | move_to (pos : Vec3)
  | move_by (pos : Vec3)
  | transform (m : Mat3)
  | optimise

/-- Apply one shape operation. -/
def applyOp (s : Shape3) : Op → Shape3
  | .move_to p => s.move_to p
  | .move_by p => s.move_by p
  | .transform m => s.transform m
  | .optimise => s.optimise

/-- Apply a sequence of shape operations in order. -/
def applyOps (s : Shape3) (ops : List Op) : Shape3 := ops.foldl applyOp s

/-- Edge-index validity: every point index occurring in an edge is a
valid index into the point list. -/
def Shape3.Valid (s : Shape3) : Prop :=
  ∀ e ∈ s.lines, ∀ i ∈ e, i < s.points.length

instance (s : Shape3) : Decidable s.Valid := by
  unfold Shape3.Valid; infer_instance

/-- The old-index-to-new-index mapping as the claim describes it: old
index `i` is sent to the position of `ps[i]`'s first occurrence in the
retained (first-occurrences) list. -/
def specNewIndex (ps : List Vec3) (i : ℕ) : ℕ :=
  (firstIdx (keepFirst ps) (ps.getD i v0)).getD 0

/-- The deduplication pass as the claim describes it: retain the first
occurrence of each distinct point value in original order, push every
edge through the first-occurrence index mapping as an unordered pair,
then drop duplicate edges keeping first occurrences. -/
def specOptimise (s : Shape3) : Shape3 :=
  { points := keepFirst s.points,
    lines := keepFirst (s.lines.map (fun e => e.image (specNewIndex s.points))) }

/-- Runtime errors of the host language that the embedded fragments can
raise: attribute lookup failure, operand type mismatch, unpacking a
collection of the wrong size, a missing dictionary key, and the
dimensionality mismatch of the spec's error taxonomy (§7). -/
inductive PyErr where
  | attributeError
  | typeError
  | valueError
  | keyError
  | invalidInput
  deriving DecidableEq, Repr

/-- Tuple-unpacking of one edge, as `for p1, p2 in self.shape.lines`
performs it in `Window.draw` (`main.py`): succeeds exactly when the set
has two elements, otherwise Python raises a `ValueError`. -/
def unpack2 (e : Edge) : Except PyErr (ℕ × ℕ) :=
  match e.sort (· ≤ ·) with
  | [a, b] => .ok (a, b)
  | _ => .error .valueError

/-- The edge loop of `Window.draw` from `main.py`: unpack every edge of
the shape into its two endpoint indices (the drawn segments). -/
def drawLinesLoop (s : Shape3) : Except PyErr (List (ℕ × ℕ)) :=
  s.lines.mapM unpack2

/-- The edge-rewrite comprehension of `Shape.optimise` from `shapes.py`,
`[{changes[i], changes[j]} for i,j in self.lines]`, with Python's
failure modes explicit: each existing edge is tuple-unpacked into
exactly two targets (ValueError otherwise), and each target is looked
up in the `changes` dict, whose keys are `0 .. len(points)-1` (KeyError
when out of range).  `n` is the point count and `f` the total lookup
used on in-range keys. -/
def rewriteLines (n : ℕ) (f : ℕ → ℕ) : List Edge → Except PyErr (List Edge)
  | [] => .ok []
  | e :: rest =>
    match unpack2 e with
    | .error err => .error err
    | .ok (i, j) =>
      if i < n ∧ j < n then
        match rewriteLines n f rest with
        | .error err => .error err
        | .ok ls => .ok (({f i, f j} : Edge) :: ls)
      else .error .keyError

/-- `Shape.optimise` from `shapes.py` with the failure modes of its edge
rewrite made explicit (see `rewriteLines`): scan the points, then
rewrite the edges — raising ValueError on an edge that is not a
two-element set and KeyError on an out-of-range index — then drop
duplicate edges keeping first occurrences. -/
def Shape3.optimiseE (s : Shape3) : Except PyErr Shape3 :=
  match rewriteLines s.points.length
      (fun i => (scanPoints s.points [] [] 0).2.getD i 0) s.lines with
  | .error err => .error err
  | .ok ls => .ok { points := (scanPoints s.points [] [] 0).1, lines := keepFirst ls }

/-- Attribute lookup for `self.shape.faces` as `Window.draw` performs
it: no class in `shapes.py` (`Shape`, `Cube`, `SquarePyramid`,
`ShapeCombination`) defines a `faces` attribute, so for every shape
value the lookup finds nothing. -/
def Shape3.faces? (_ : Shape3) : Option (List (List ℕ)) := none

/-- The face-then-edge portion of `Window.draw` from `main.py`: iterate
`self.shape.faces` drawing filled polygons, then iterate
`self.shape.lines` unpacking each edge into two endpoint indices.
Accessing the missing `faces` attribute raises an `AttributeError` in
Python, modelled as an error result. -/
def drawFacesThenLines (s : Shape3) : Except PyErr (List (List ℕ) × List (ℕ × ℕ)) :=
  match s.faces? with
  | none => .error .attributeError
  | some fs => do
      let segs ← s.lines.mapM unpack2
      pure (fs, segs)

/-- Three-component vector over ℝ for the camera / projection layer of
`main.py` (which uses `sin`, `cos`, `atan` and square roots).
Modelled from the spec as for `Vec3`. -/
@[ext]
structure RVec3 where
  x : ℝ
  y : ℝ
  z : ℝ

/-- Two-component vector over ℝ (screen-space points). -/
@[ext]
structure RVec2 where
  x : ℝ
  y : ℝ

/-- Modelled from the spec: component-wise addition. -/
noncomputable instance : Add RVec3 := ⟨fun a b => ⟨a.x + b.x, a.y + b.y, a.z + b.z⟩⟩

/-- Modelled from the spec: component-wise subtraction. -/
noncomputable instance : Sub RVec3 := ⟨fun a b => ⟨a.x - b.x, a.y - b.y, a.z - b.z⟩⟩

/-- Modelled from the spec: scalar multiplication, `v * r`. -/
noncomputable instance : HMul RVec3 ℝ RVec3 := ⟨fun v r => ⟨v.x * r, v.y * r, v.z * r⟩⟩

/-- Modelled from the spec: component-wise addition (2D). -/
noncomputable instance : Add RVec2 := ⟨fun a b => ⟨a.x + b.x, a.y + b.y⟩⟩

/-- Modelled from the spec: dot product over ℝ. -/
noncomputable def RVec3.dot (a b : RVec3) : ℝ := a.x * b.x + a.y * b.y + a.z * b.z

/-- Modelled from the spec: Euclidean norm — square root of the sum of
squared components. -/
noncomputable def RVec3.length (v : RVec3) : ℝ := Real.sqrt (v.x ^ 2 + v.y ^ 2 + v.z ^ 2)

/-- Three-by-three real matrix as ordered rows. -/
structure RMat3 where
  r1 : RVec3
  r2 : RVec3
  r3 : RVec3

/-- Modelled from the spec: matrix-vector multiplication over ℝ. -/
noncomputable def RMat3.mulVec (m : RMat3) (v : RVec3) : RVec3 :=
  ⟨m.r1.dot v, m.r2.dot v, m.r3.dot v⟩

/-- Modelled from the spec: matrix-matrix multiplication (used by
`Camera.turn` to compose the two rotators before applying them). -/
noncomputable def RMat3.mul (a b : RMat3) : RMat3 :=
  ⟨⟨a.r1.dot ⟨b.r1.x, b.r2.x, b.r3.x⟩, a.r1.dot ⟨b.r1.y, b.r2.y, b.r3.y⟩, a.r1.dot ⟨b.r1.z, b.r2.z, b.r3.z⟩⟩,
   ⟨a.r2.dot ⟨b.r1.x, b.r2.x, b.r3.x⟩, a.r2.dot ⟨b.r1.y, b.r2.y, b.r3.y⟩, a.r2.dot ⟨b.r1.z, b.r2.z, b.r3.z⟩⟩,
   ⟨a.r3.dot ⟨b.r1.x, b.r2.x, b.r3.x⟩, a.r3.dot ⟨b.r1.y, b.r2.y, b.r3.y⟩, a.r3.dot ⟨b.r1.z, b.r2.z, b.r3.z⟩⟩⟩

/-- Two-row, three-column matrix (the projection matrix of `main.py`). -/
structure RMat23 where
  r1 : RVec3
  r2 : RVec3

/-- Modelled from the spec: matrix-vector multiplication for the
non-square 2×3 case — one output component per row. -/
noncomputable def RMat23.mulVec (m : RMat23) (v : RVec3) : RVec2 :=
  ⟨m.r1.dot v, m.r2.dot v⟩

/-- `z_rotator(angle)` from `main.py`:
`[[cos a, -sin a, 0], [sin a, cos a, 0], [0, 0, 1]]`. -/
noncomputable def z_rotator (angle : ℝ) : RMat3 :=
  ⟨⟨Real.cos angle, -Real.sin angle, 0⟩,
   ⟨Real.sin angle, Real.cos angle, 0⟩,
   ⟨0, 0, 1⟩⟩

/-- `x_rotator(angle)` from `main.py`:
`[[1, 0, 0], [0, cos a, -sin a], [0, sin a, cos a]]`. -/
noncomputable def x_rotator (angle : ℝ) : RMat3 :=
  ⟨⟨1, 0, 0⟩,
   ⟨0, Real.cos angle, -Real.sin angle⟩,
   ⟨0, Real.sin angle, Real.cos angle⟩⟩

/-- The `Camera` state of `main.py`: position, view direction, movement
speed and (unused) rotation speed. -/
@[ext]
structure Camera where
  pos : RVec3
  view : RVec3
  speed : ℝ
  rot_speed : ℝ

/-- The default-constructed camera of `main.py`:
`pos=V(0,-10,0), view=V(0,1,0), speed=0.1, rot_speed=pi/64`. -/
noncomputable def Camera.init : Camera :=
  ⟨⟨0, -10, 0⟩, ⟨0, 1, 0⟩, 1 / 10, Real.pi / 64⟩

/-- `Camera.x` from `main.py`: first component of the view vector. -/
noncomputable def Camera.x (c : Camera) : ℝ := c.view.x

/-- `Camera.y` from `main.py`: second component of the view vector. -/
noncomputable def Camera.y (c : Camera) : ℝ := c.view.y

/-- `Camera.z` from `main.py`: third component of the view vector. -/
noncomputable def Camera.z (c : Camera) : ℝ := c.view.z

open scoped Classical in
/-- `Camera.z_rotation_angle` from `main.py`: `pi` when `self.y` is
zero, else `atan(self.x / self.y)`; a property, recomputed from the
current view vector at each access. -/
noncomputable def Camera.z_rotation_angle (c : Camera) : ℝ :=
  if c.y = 0 then Real.pi else Real.arctan (c.x / c.y)

open scoped Classical in
/-- `Camera.x_rotation_angle` from `main.py`: `pi` when `self.y` is
zero, else `atan(self.z / self.y)`. -/
noncomputable def Camera.x_rotation_angle (c : Camera) : ℝ :=
  if c.y = 0 then Real.pi else Real.arctan (c.z / c.y)

/-- `Camera.move` from `main.py`: `self.pos += v * self.speed`. -/
noncomputable def Camera.move (c : Camera) (v : RVec3) : Camera :=
  { c with pos := c.pos + v * c.speed }

/-- `Camera.turn` from `main.py`:
`rot_matrix = x_rotator(rad_x) * z_rotator(rad_z); self.view = rot_matrix * self.view`. -/
noncomputable def Camera.turn (c : Camera) (rad_x rad_z : ℝ) : Camera :=
  { c with view := ((x_rotator rad_x).mul (z_rotator rad_z)).mulVec c.view }

/-- `projection(v, camera, centre)` from `main.py`: translate by
`-camera.pos`, apply the x-rotator then the z-rotator at the camera's
derived angles, compute `sx = 1/len`, `sy = 1/len`, scale `sx` by `800`
and `sy` by `-800`, apply the 2×3 matrix `[[sx,0,0],[0,0,sy]]`, and add
the screen centre. -/
noncomputable def projection (v : RVec3) (camera : Camera) (centre : RVec2) : RVec2 :=
  let v1 := v - camera.pos
  let v2 := (x_rotator camera.x_rotation_angle).mulVec v1
  let v3 := (z_rotator camera.z_rotation_angle).mulVec v2
  let sx := 1 / v3.length
  let sy := 1 / v3.length
  let sx2 := sx * 800
  let sy2 := sy * (-800)
  let res := RMat23.mulVec ⟨⟨sx2, 0, 0⟩, ⟨0, 0, sy2⟩⟩ v3
  res + centre

/-- An entry of the `Window.KEY_BINDINGS` table of `main.py`: the
movement keys map to 3-component vectors, the look keys to 2-component
vectors. -/
inductive KeyVec where
  | v3 (v : RVec3)
  | v2 (a b : ℝ)

/-- `Window.KEY_BINDINGS` from `main.py`. -/
noncomputable def KEY_BINDINGS : Char → Option KeyVec
  | 'w' => some (.v3 ⟨0, 1, 0⟩)
  | 'a' => some (.v3 ⟨-1, 0, 0⟩)
  | 's' => some (.v3 ⟨0, -1, 0⟩)
  | 'd' => some (.v3 ⟨1, 0, 0⟩)
  | ' ' => some (.v3 ⟨0, 0, 1⟩)
  | 'q' => some (.v3 ⟨0, 0, -1⟩)
  | 'i' => some (.v2 1 0)
  | 'j' => some (.v2 0 1)
  | 'k' => some (.v2 (-1) 0)
  | 'l' => some (.v2 0 (-1))
  | _ => none

/-- `Window.move_input` from `main.py`: return unchanged while paused;
otherwise `v = KEY_BINDINGS.get(event.char, V(0,0,0))` and
`camera.move(v)`.  A 2-component table entry would make
`pos += v * speed` a dimensionality mismatch (spec §7); the unmapped
default `V(0,0,0)` moves by the zero vector. -/
noncomputable def move_input (paused : Bool) (c : Camera) (char : Char) : Except PyErr Camera :=
  if paused then .ok c
  else
    match KEY_BINDINGS char with
    | some (.v3 v) => .ok (c.move v)
    | some (.v2 _ _) => .error .invalidInput
    | none => .ok (c.move ⟨0, 0, 0⟩)

/-- `Window.turn_input` (key branch) from `main.py`: return unchanged
while paused; otherwise `v = KEY_BINDINGS.get(event.char, (0,0))`,
`v *= pi/64`, `camera.turn(*v.value)`.  A 3-component entry would
unpack into three arguments for the two-angle `turn` (a `TypeError`),
and the unmapped default is the plain pair `(0,0)`, for which
`(0,0) * (pi/64)` raises a `TypeError` (sequence times non-int) before
`turn` is ever reached. -/
noncomputable def turn_input (paused : Bool) (c : Camera) (char : Char) : Except PyErr Camera :=
  if paused then .ok c
  else
    match KEY_BINDINGS char with
    | some (.v2 a b) => .ok (c.turn (a * (Real.pi / 64)) (b * (Real.pi / 64)))
    | some (.v3 _) => .error .typeError
    | none => .error .typeError

/-! ### Component lemmas for the vector arithmetic -/

@[simp]
theorem Vec3.add_x (a b : Vec3) : (a + b).x = a.x + b.x := rfl

@[simp]
theorem Vec3.add_y (a b : Vec3) : (a + b).y = a.y + b.y := rfl

@[simp]
theorem Vec3.add_z (a b : Vec3) : (a + b).z = a.z + b.z := rfl

@[simp]
theorem Vec3.sub_x (a b : Vec3) : (a - b).x = a.x - b.x := rfl

@[simp]
theorem Vec3.sub_y (a b : Vec3) : (a - b).y = a.y - b.y := rfl

@[simp]
theorem Vec3.sub_z (a b : Vec3) : (a - b).z = a.z - b.z := rfl

/-! ### Lemmas about `firstIdx` (the inner search loop of `optimise`) -/

theorem firstIdx_eq_none_iff (l : List Vec3) (v : Vec3) : firstIdx l v = none ↔ v ∉ l := by
  induction l with
  | nil => simp [firstIdx]
  | cons w ws ih =>
    by_cases h : w = v
    · subst h; simp [firstIdx]
    · have h' : v ≠ w := fun hv => h hv.symm
      rw [firstIdx, if_neg h]
      simp [Option.map_eq_none', ih, List.mem_cons, h']

theorem firstIdx_lt {l : List Vec3} {v : Vec3} {j : ℕ} (h : firstIdx l v = some j) :
    j < l.length := by
  induction l generalizing j with
  | nil => simp [firstIdx] at h
  | cons w ws ih =>
    rw [firstIdx] at h
    by_cases hw : w = v
    · rw [if_pos hw] at h
      cases h
      simp
    · rw [if_neg hw] at h
      cases hm : firstIdx ws v with
      | none => rw [hm] at h; simp at h
      | some k =>
        rw [hm] at h
        simp only [Option.map_some'] at h
        cases h
        have := ih hm
        simp only [List.length_cons]
        omega

theorem firstIdx_append_left {l : List Vec3} {v : Vec3} {j : ℕ}
    (h : firstIdx l v = some j) (l' : List Vec3) : firstIdx (l ++ l') v = some j := by
  induction l generalizing j with
  | nil => simp [firstIdx] at h
  | cons w ws ih =>
    rw [firstIdx] at h
    rw [List.cons_append, firstIdx]
    by_cases hw : w = v
    · rw [if_pos hw] at h ⊢; exact h
    · rw [if_neg hw] at h ⊢
      cases hm : firstIdx ws v with
      | none => rw [hm] at h; simp at h
      | some k => rw [hm] at h; rw [ih hm]; exact h

theorem firstIdx_none_append {l : List Vec3} {v : Vec3}
    (h : firstIdx l v = none) (l' : List Vec3) :
    firstIdx (l ++ l') v = (firstIdx l' v).map (· + l.length) := by
  induction l with
  | nil =>
    cases hm : firstIdx l' v <;> simp [hm]
  | cons w ws ih =>
    rw [firstIdx] at h
    by_cases hw : w = v
    · rw [if_pos hw] at h; simp at h
    · rw [if_neg hw] at h
      have hws : firstIdx ws v = none := by
        cases hm : firstIdx ws v with
        | none => rfl
        | some k => rw [hm] at h; simp at h
      rw [List.cons_append, firstIdx, if_neg hw, ih hws]
      cases hm : firstIdx l' v <;> simp [hm, List.length_cons, Nat.add_assoc]

theorem firstIdx_self_append {l : List Vec3} {v : Vec3} (h : firstIdx l v = none) :
    firstIdx (l ++ [v]) v = some l.length := by
  rw [firstIdx_none_append h]
  simp [firstIdx]

theorem firstIdx_of_nodup {l : List Vec3} (hl : l.Nodup) {k : ℕ} (hk : k < l.length) :
    firstIdx l (l.getD k v0) = some k := by
  induction l generalizing k with
  | nil => simp at hk
  | cons w ws ih =>
    cases k with
    | zero => simp [firstIdx]
    | succ k =>
      have hk' : k < ws.length := by simpa using hk
      have hmem : ws.getD k v0 ∈ ws := by
        rw [List.getD_eq_getElem _ _ hk']
        exact List.getElem_mem hk'
      have hw : w ≠ ws.getD k v0 := by
        intro hEq
        exact (List.nodup_cons.mp hl).1 (hEq ▸ hmem)
      rw [List.getD_cons_succ, firstIdx, if_neg hw,
        ih (List.nodup_cons.mp hl).2 hk']
      rfl

/-! ### Lemmas about `keepFirstFrom` (first-occurrence retention) -/

theorem mem_keepFirstFrom {α : Type} [DecidableEq α] {ls acc : List α} {x : α}
    (h : x ∈ keepFirstFrom ls acc) : x ∈ acc ∨ x ∈ ls := by
  induction ls generalizing acc with
  | nil => exact Or.inl (by simpa [keepFirstFrom] using h)
  | cons l rest ih =>
    by_cases hl : l ∈ acc
    · rw [keepFirstFrom, if_pos hl] at h
      rcases ih h with h1 | h2
      · exact Or.inl h1
      · exact Or.inr (List.mem_cons_of_mem _ h2)
    · rw [keepFirstFrom, if_neg hl] at h
      rcases ih h with h1 | h2
      · rcases List.mem_append.mp h1 with h3 | h4
        · exact Or.inl h3
        · simp only [List.mem_singleton] at h4
          exact Or.inr (h4 ▸ List.mem_cons_self _ _)
      · exact Or.inr (List.mem_cons_of_mem _ h2)

theorem keepFirstFrom_nodup {α : Type} [DecidableEq α] {ls acc : List α}
    (h : acc.Nodup) : (keepFirstFrom ls acc).Nodup := by
  induction ls generalizing acc with
  | nil => simpa [keepFirstFrom] using h
  | cons l rest ih =>
    by_cases hl : l ∈ acc
    · rw [keepFirstFrom, if_pos hl]; exact ih h
    · rw [keepFirstFrom, if_neg hl]
      exact ih (by simp [List.nodup_append, h, hl])

theorem keepFirstFrom_of_disjoint {α : Type} [DecidableEq α] {ls acc : List α}
    (h1 : ls.Nodup) (h2 : ∀ x ∈ ls, x ∉ acc) : keepFirstFrom ls acc = acc ++ ls := by
  induction ls generalizing acc with
  | nil => simp [keepFirstFrom]
  | cons l rest ih =>
    have hl : l ∉ acc := h2 l (List.mem_cons_self _ _)
    rw [keepFirstFrom, if_neg hl,
      ih (List.nodup_cons.mp h1).2 ?_, List.append_assoc]
    · rfl
    · intro x hx
      intro hmem
      rcases List.mem_append.mp hmem with h3 | h4
      · exact h2 x (List.mem_cons_of_mem _ hx) h3
      · simp only [List.mem_singleton] at h4
        exact (List.nodup_cons.mp h1).1 (h4 ▸ hx)

theorem keepFirst_nodup {α : Type} [DecidableEq α] (ls : List α) : (keepFirst ls).Nodup :=
  keepFirstFrom_nodup List.nodup_nil

theorem keepFirst_of_nodup {α : Type} [DecidableEq α] {ls : List α} (h : ls.Nodup) :
    keepFirst ls = ls := by
  rw [keepFirst, keepFirstFrom_of_disjoint h (by simp), List.nil_append]

theorem mem_keepFirst {α : Type} [DecidableEq α] {ls : List α} {x : α}
    (h : x ∈ keepFirst ls) : x ∈ ls :=
  (mem_keepFirstFrom h).resolve_left (by simp)

/-! ### Lemmas about `scanPoints` (the scanning loop of `optimise`) -/

theorem getD_append_of_lt {α : Type} (l l' : List α) (d : α) {k : ℕ} (hk : k < l.length) :
    (l ++ l').getD k d = l.getD k d := by
  rw [List.getD_eq_getElem _ _ (by simp; omega), List.getD_eq_getElem _ _ hk,
    List.getElem_append_left]

theorem getD_append_self {α : Type} (l : List α) (a d : α) :
    (l ++ [a]).getD l.length d = a := by
  rw [List.getD_eq_getElem _ _ (by simp)]
  simp

theorem scanPoints_cons_some {v : Vec3} {seen : List Vec3} {j : ℕ}
    (hm : firstIdx seen v = some j) (rest : List Vec3) (ch : List ℕ) (off : ℕ) :
    scanPoints (v :: rest) seen ch off = scanPoints rest seen (ch ++ [j]) (off + 1) := by
  simp only [scanPoints, hm]

theorem scanPoints_cons_none {v : Vec3} {seen : List Vec3}
    (hm : firstIdx seen v = none) (rest : List Vec3) (ch : List ℕ) (off : ℕ) :
    scanPoints (v :: rest) seen ch off
      = scanPoints rest (seen ++ [v]) (ch ++ [ch.length - off]) off := by
  simp only [scanPoints, hm]

theorem scanPoints_seen_extends (ps : List Vec3) :
    ∀ (seen : List Vec3) (ch : List ℕ) (off : ℕ),
      ∃ t, (scanPoints ps seen ch off).1 = seen ++ t := by
  induction ps with
  | nil => exact fun seen ch off => ⟨[], by simp [scanPoints]⟩
  | cons v rest ih =>
    intro seen ch off
    cases hm : firstIdx seen v with
    | some j =>
      obtain ⟨t, ht⟩ := ih seen (ch ++ [j]) (off + 1)
      exact ⟨t, by rw [scanPoints_cons_some hm]; exact ht⟩
    | none =>
      obtain ⟨t, ht⟩ := ih (seen ++ [v]) (ch ++ [ch.length - off]) off
      refine ⟨[v] ++ t, ?_⟩
      rw [scanPoints_cons_none hm, ht, List.append_assoc]

theorem scanPoints_ch_extends (ps : List Vec3) :
    ∀ (seen : List Vec3) (ch : List ℕ) (off : ℕ),
      ∃ t, (scanPoints ps seen ch off).2 = ch ++ t := by
  induction ps with
  | nil => exact fun seen ch off => ⟨[], by simp [scanPoints]⟩
  | cons v rest ih =>
    intro seen ch off
    cases hm : firstIdx seen v with
    | some j =>
      obtain ⟨t, ht⟩ := ih seen (ch ++ [j]) (off + 1)
      refine ⟨[j] ++ t, ?_⟩
      rw [scanPoints_cons_some hm, ht, List.append_assoc]
    | none =>
      obtain ⟨t, ht⟩ := ih (seen ++ [v]) (ch ++ [ch.length - off]) off
      refine ⟨[ch.length - off] ++ t, ?_⟩
      rw [scanPoints_cons_none hm, ht, List.append_assoc]

theorem scanPoints_ch_length (ps : List Vec3) :
    ∀ (seen : List Vec3) (ch : List ℕ) (off : ℕ),
      (scanPoints ps seen ch off).2.length = ch.length + ps.length := by
  induction ps with
  | nil => intro seen ch off; simp [scanPoints]
  | cons v rest ih =>
    intro seen ch off
    cases hm : firstIdx seen v with
    | some j =>
      rw [scanPoints_cons_some hm, ih]
      simp only [List.length_append, List.length_cons, List.length_singleton, List.length_nil]
      omega
    | none =>
      rw [scanPoints_cons_none hm, ih]
      simp only [List.length_append, List.length_cons, List.length_singleton, List.length_nil]
      omega

theorem scanPoints_seen_eq (ps : List Vec3) :
    ∀ (seen : List Vec3) (ch : List ℕ) (off : ℕ),
      (scanPoints ps seen ch off).1 = keepFirstFrom ps seen := by
  induction ps with
  | nil => intro seen ch off; simp [scanPoints, keepFirstFrom]
  | cons v rest ih =>
    intro seen ch off
    cases hm : firstIdx seen v with
    | some j =>
      have hv : v ∈ seen := by
        by_contra hv
        rw [(firstIdx_eq_none_iff seen v).mpr hv] at hm
        cases hm
      rw [scanPoints_cons_some hm, keepFirstFrom, if_pos hv, ih]
    | none =>
      have hv : v ∉ seen := (firstIdx_eq_none_iff seen v).mp hm
      rw [scanPoints_cons_none hm, keepFirstFrom, if_neg hv, ih]

theorem scanPoints_ch_getD_of_lt (ps seen : List Vec3) (ch : List ℕ) (off : ℕ)
    {k : ℕ} (hk : k < ch.length) :
    (scanPoints ps seen ch off).2.getD k 0 = ch.getD k 0 := by
  obtain ⟨t, ht⟩ := scanPoints_ch_extends ps seen ch off
  rw [ht, getD_append_of_lt _ _ _ hk]

theorem scanPoints_ch_spec (ps : List Vec3) :
    ∀ (seen : List Vec3) (ch : List ℕ) (off : ℕ),
      ch.length = seen.length + off →
      ∀ k, k < ps.length →
        (scanPoints ps seen ch off).2.getD (ch.length + k) 0
          = (firstIdx (scanPoints ps seen ch off).1 (ps.getD k v0)).getD 0 := by
  induction ps with
  | nil => intro seen ch off hinv k hk; simp at hk
  | cons v rest ih =>
    intro seen ch off hinv k hk
    cases hm : firstIdx seen v with
    | some j =>
      rw [scanPoints_cons_some hm]
      cases k with
      | zero =>
        obtain ⟨t, ht⟩ := scanPoints_seen_extends rest seen (ch ++ [j]) (off + 1)
        have hL : (scanPoints rest seen (ch ++ [j]) (off + 1)).2.getD (ch.length + 0) 0
            = j := by
          rw [scanPoints_ch_getD_of_lt _ _ _ _ (by simp)]
          simp
        rw [hL, List.getD_cons_zero, ht, firstIdx_append_left hm t]
        rfl
      | succ k =>
        have hk' : k < rest.length := by simpa using hk
        have hstep := ih seen (ch ++ [j]) (off + 1)
          (by simp only [List.length_append, List.length_singleton, List.length_nil]; omega) k hk'
        have harith : ch.length + (k + 1) = (ch ++ [j]).length + k := by
          simp only [List.length_append, List.length_singleton, List.length_nil]; omega
        rw [harith, List.getD_cons_succ]
        exact hstep
    | none =>
      rw [scanPoints_cons_none hm]
      cases k with
      | zero =>
        obtain ⟨t, ht⟩ :=
          scanPoints_seen_extends rest (seen ++ [v]) (ch ++ [ch.length - off]) off
        have hL : (scanPoints rest (seen ++ [v]) (ch ++ [ch.length - off]) off).2.getD
            (ch.length + 0) 0 = ch.length - off := by
          rw [scanPoints_ch_getD_of_lt _ _ _ _ (by simp)]
          simp
        rw [hL, List.getD_cons_zero, ht,
          firstIdx_append_left (firstIdx_self_append hm) t]
        simp only [Option.getD_some]
        omega
      | succ k =>
        have hk' : k < rest.length := by simpa using hk
        have hstep := ih (seen ++ [v]) (ch ++ [ch.length - off]) off
          (by simp only [List.length_append, List.length_singleton, List.length_nil]; omega) k hk'
        have harith : ch.length + (k + 1) = (ch ++ [ch.length - off]).length + k := by
          simp only [List.length_append, List.length_singleton, List.length_nil]; omega
        rw [harith, List.getD_cons_succ]
        exact hstep

theorem scanPoints_ch_lt (ps : List Vec3) :
    ∀ (seen : List Vec3) (ch : List ℕ) (off : ℕ),
      ch.length = seen.length + off →
      (∀ a ∈ ch, a < seen.length) →
      ∀ a ∈ (scanPoints ps seen ch off).2, a < (scanPoints ps seen ch off).1.length := by
  induction ps with
  | nil =>
    intro seen ch off hinv hlt a ha
    simp only [scanPoints] at ha ⊢
    exact hlt a ha
  | cons v rest ih =>
    intro seen ch off hinv hlt a ha
    cases hm : firstIdx seen v with
    | some j =>
      rw [scanPoints_cons_some hm] at ha ⊢
      refine ih seen (ch ++ [j]) (off + 1)
        (by simp only [List.length_append, List.length_singleton, List.length_nil]; omega) ?_ a ha
      intro b hb
      rcases List.mem_append.mp hb with h1 | h2
      · exact hlt b h1
      · simp only [List.mem_singleton] at h2
        exact h2 ▸ firstIdx_lt hm
    | none =>
      rw [scanPoints_cons_none hm] at ha ⊢
      refine ih (seen ++ [v]) (ch ++ [ch.length - off]) off
        (by simp only [List.length_append, List.length_singleton, List.length_nil]; omega) ?_ a ha
      intro b hb
      have hgoal : b < seen.length + 1 → b < (seen ++ [v]).length := by
        simp only [List.length_append, List.length_singleton, List.length_nil]; omega
      rcases List.mem_append.mp hb with h1 | h2
      · exact hgoal (Nat.lt_succ_of_lt (hlt b h1))
      · simp only [List.mem_singleton] at h2
        exact hgoal (by omega)

/-! ### Characterisation of `optimise` and validity preservation -/

theorem optimise_points_eq (s : Shape3) : s.optimise.points = keepFirst s.points := by
  simp only [Shape3.optimise]
  rw [scanPoints_seen_eq]
  rfl

theorem optimise_lines_eq (s : Shape3) :
    s.optimise.lines
      = keepFirst (s.lines.map
          (fun e => e.image (fun i => (scanPoints s.points [] [] 0).2.getD i 0))) := by
  simp only [Shape3.optimise]

theorem Shape3.Valid.move_to {s : Shape3} (h : s.Valid) (p : Vec3) : (s.move_to p).Valid := by
  intro e he i hi
  simp only [Shape3.move_to, List.length_map] at he ⊢
  exact h e he i hi

theorem Shape3.Valid.move_by {s : Shape3} (h : s.Valid) (p : Vec3) : (s.move_by p).Valid := by
  intro e he i hi
  simp only [Shape3.move_by, List.length_map] at he ⊢
  exact h e he i hi

theorem Shape3.Valid.optimise {s : Shape3} (h : s.Valid) : s.optimise.Valid := by
  intro e' he' i' hi'
  rw [optimise_lines_eq] at he'
  obtain ⟨e, he, rfl⟩ := List.mem_map.mp (mem_keepFirst he')
  obtain ⟨i, hi, rfl⟩ := Finset.mem_image.mp hi'
  have hip : i < s.points.length := h e he i hi
  simp only [Shape3.optimise]
  refine scanPoints_ch_lt s.points [] [] 0 rfl (by simp) _ ?_
  have hlen : i < (scanPoints s.points [] [] 0).2.length := by
    rw [scanPoints_ch_length]
    simpa using hip
  rw [List.getD_eq_getElem _ _ hlen]
  exact List.getElem_mem hlen

theorem Shape3.Valid.transform {s : Shape3} (h : s.Valid) (m : Mat3) :
    (s.transform m).Valid := by
  have hmap : ({ s with points := s.points.map (fun v => m.mulVec v) } : Shape3).Valid := by
    intro e he i hi
    simp only [List.length_map]
    exact h e he i hi
  have hT : s.transform m
      = if m.det = 0
          then ({ s with points := s.points.map (fun v => m.mulVec v) } : Shape3).optimise
          else { s with points := s.points.map (fun v => m.mulVec v) } := rfl
  rw [hT]
  split_ifs
  · exact hmap.optimise
  · exact hmap

theorem applyOp_valid {s : Shape3} (h : s.Valid) (op : Op) : (applyOp s op).Valid := by
  cases op with
  | move_to p => exact h.move_to p
  | move_by p => exact h.move_by p
  | transform m => exact h.transform m
  | optimise => exact h.optimise

theorem applyOps_valid {s : Shape3} (h : s.Valid) (ops : List Op) :
    (applyOps s ops).Valid := by
  induction ops generalizing s with
  | nil => simpa [applyOps] using h
  | cons op rest ih =>
    simp only [applyOps, List.foldl_cons]
    exact ih (applyOp_valid h op)

theorem combineStep_valid {acc c : Shape3} (h1 : acc.Valid) (h2 : c.Valid) :
    (combineStep acc c).Valid := by
  intro e he i hi
  simp only [combineStep, List.length_append]
  rcases List.mem_append.mp he with h | h
  · have := h1 e h i hi
    omega
  · obtain ⟨e0, he0, rfl⟩ := List.mem_map.mp h
    obtain ⟨i0, hi0, rfl⟩ := Finset.mem_image.mp hi
    have := h2 e0 he0 i0 hi0
    omega

theorem combineChildren_valid {cs : List Shape3} (h : ∀ c ∈ cs, c.Valid) :
    (combineChildren cs).Valid := by
  suffices H : ∀ (cs : List Shape3) (acc : Shape3), acc.Valid → (∀ c ∈ cs, c.Valid) →
      (cs.foldl combineStep acc).Valid by
    refine H cs _ ?_ h
    intro e he i hi
    simp at he
  intro cs
  induction cs with
  | nil =>
    intro acc hacc _
    simpa using hacc
  | cons c rest ih =>
    intro acc hacc hall
    simp only [List.foldl_cons]
    exact ih _ (combineStep_valid hacc (hall c (List.mem_cons_self _ _)))
      (fun d hd => hall d (List.mem_cons_of_mem _ hd))

theorem mkShape_valid {base : Shape3} (h : base.Valid) (shift : Vec3) (trans : Mat3) :
    (mkShape base shift trans).Valid :=
  (h.move_to shift).transform trans

/-- The refinement at the core of the deduplication claim: on any shape
with valid edge indices, the code's `optimise` computes exactly the
first-occurrence description. -/
theorem optimise_eq_spec (s : Shape3) (h : s.Valid) : s.optimise = specOptimise s := by
  refine Shape3.ext ?_ ?_
  · rw [optimise_points_eq]
    rfl
  · rw [optimise_lines_eq]
    show keepFirst _ = keepFirst (s.lines.map (fun e => e.image (specNewIndex s.points)))
    congr 1
    refine List.map_congr_left ?_
    intro e he
    refine Finset.image_congr ?_
    intro i hi
    have hip : i < s.points.length := h e he i hi
    have hspec := scanPoints_ch_spec s.points [] [] 0 rfl i hip
    simp only [List.length_nil, Nat.zero_add] at hspec
    show (scanPoints s.points [] [] 0).2.getD i 0 = specNewIndex s.points i
    rw [hspec, scanPoints_seen_eq]
    rfl

/-! ### Claim theorems for the shape model -/

/-- C2: `optimise()` retains exactly the first occurrence of each
distinct point value in original order, rewrites every edge through the
old-index-to-new-index mapping as an unordered pair, and removes
duplicate edges keeping first occurrences; and for the combination of a
unit cube at the origin with a unit cube at `(0,0,1)`, after
`optimise()` the point count is below 16 and no two edges are equal as
unordered pairs. -/
theorem C2_optimise_dedup :
    (∀ s : Shape3, s.Valid → s.optimise = specOptimise s)
    ∧ ((ShapeCombination [Cube v0 m1, Cube ⟨0,0,1⟩ m1] v0 m1).optimise).points.length < 16
    ∧ ((ShapeCombination [Cube v0 m1, Cube ⟨0,0,1⟩ m1] v0 m1).optimise).lines.Nodup :=
  ⟨fun s h => optimise_eq_spec s h,
    of_decide_eq_true (by with_unfolding_all rfl),
    of_decide_eq_true (by with_unfolding_all rfl)⟩

/-- Witness for C2 at a concrete shape: the default cube has valid edge
indices, and its `optimise` equals the claim's description. -/
theorem C2_witness :
    cubeDefault.Valid ∧ cubeDefault.optimise = specOptimise cubeDefault :=
  ⟨by decide, C2_optimise_dedup.1 cubeDefault (by decide)⟩

/-- C3: edge-index validity is an invariant — for every `Cube`,
`SquarePyramid`, or `ShapeCombination` of children whose edges are
valid, and after any sequence of `move_to`, `move_by`, `transform` and
`optimise`, every point index occurring in an edge is strictly less
than the number of points. -/
theorem C3_edge_index_invariant :
    (∀ (shift : Vec3) (trans : Mat3) (ops : List Op),
      (applyOps (Cube shift trans) ops).Valid)
    ∧ (∀ (shift : Vec3) (trans : Mat3) (ops : List Op),
      (applyOps (SquarePyramid shift trans) ops).Valid)
    ∧ (∀ (cs : List Shape3) (shift : Vec3) (trans : Mat3) (ops : List Op),
      (∀ c ∈ cs, c.Valid) → (applyOps (ShapeCombination cs shift trans) ops).Valid) := by
  refine ⟨?_, ?_, ?_⟩
  · intro shift trans ops
    exact applyOps_valid (mkShape_valid (by decide) shift trans) ops
  · intro shift trans ops
    exact applyOps_valid (mkShape_valid (by decide) shift trans) ops
  · intro cs shift trans ops h
    exact applyOps_valid ((mkShape_valid (combineChildren_valid h) shift trans).optimise) ops

/-- Witness for C3 at a concrete combination and operation sequence. -/
theorem C3_witness :
    (∀ c ∈ [cubeDefault], c.Valid)
    ∧ (applyOps (ShapeCombination [cubeDefault] v0 m1) [Op.optimise]).Valid :=
  ⟨by decide, C3_edge_index_invariant.2.2 [cubeDefault] v0 m1 [Op.optimise] (by decide)⟩

/-- C7: on a shape with a non-empty point list, `move_to(t)` puts the
anchor (point 0) exactly at `t`, sends every point `p` to
`p - anchor + t`, and leaves the edge list unchanged. -/
theorem C7_move_to_anchor :
    ∀ (s : Shape3) (t : Vec3), s.points ≠ [] →
      (s.move_to t).points.getD 0 v0 = t
      ∧ (∀ i, i < s.points.length →
          (s.move_to t).points.getD i v0 = s.points.getD i v0 - s.points.getD 0 v0 + t)
      ∧ (s.move_to t).lines = s.lines := by
  intro s t h
  have hlen : 0 < s.points.length := List.length_pos.mpr h
  have hhead : s.points.headD v0 = s.points.getD 0 v0 := by
    cases hp : s.points with
    | nil => exact absurd hp h
    | cons a l => rfl
  have hmain : ∀ i, i < s.points.length →
      (s.move_to t).points.getD i v0 = s.points.getD i v0 - s.points.getD 0 v0 + t := by
    intro i hi
    simp only [Shape3.move_to]
    rw [List.getD_eq_getElem _ _ (by simpa using hi), List.getElem_map,
      ← List.getD_eq_getElem _ _ hi, hhead]
  refine ⟨?_, hmain, rfl⟩
  rw [hmain 0 hlen]
  ext <;> simp

/-- Witness for C7 at the default cube. -/
theorem C7_witness :
    cubeDefault.points ≠ []
    ∧ (cubeDefault.move_to ⟨1, 2, 3⟩).points.getD 0 v0 = (⟨1, 2, 3⟩ : Vec3) :=
  ⟨by decide, (C7_move_to_anchor cubeDefault ⟨1, 2, 3⟩ (by decide)).1⟩

/-- C8: `transform(m)` maps every point through `m`, runs the
deduplication pass exactly when `det m = 0`, and when `det m ≠ 0` it
leaves the point count and the edge list unchanged. -/
theorem C8_transform_det :
    ∀ (s : Shape3) (m : Mat3),
      s.transform m
        = (if m.det = 0
            then ({ s with points := s.points.map (fun v => m.mulVec v) } : Shape3).optimise
            else { s with points := s.points.map (fun v => m.mulVec v) })
      ∧ (m.det ≠ 0 →
          (s.transform m).points = s.points.map (fun v => m.mulVec v)
          ∧ (s.transform m).lines = s.lines
          ∧ (s.transform m).points.length = s.points.length) := by
  intro s m
  refine ⟨rfl, ?_⟩
  intro h
  have ht : s.transform m = { s with points := s.points.map (fun v => m.mulVec v) } := by
    have hT : s.transform m
        = if m.det = 0
            then ({ s with points := s.points.map (fun v => m.mulVec v) } : Shape3).optimise
            else { s with points := s.points.map (fun v => m.mulVec v) } := rfl
    rw [hT, if_neg h]
  rw [ht]
  exact ⟨rfl, rfl, by simp⟩

/-- Witness for C8 at the identity matrix on the default cube. -/
theorem C8_witness :
    m1.det ≠ 0
    ∧ (cubeDefault.transform m1).points = cubeDefault.points.map (fun v => m1.mulVec v)
    ∧ (cubeDefault.transform m1).lines = cubeDefault.lines :=
  ⟨of_decide_eq_true (by with_unfolding_all rfl),
    ((C8_transform_det cubeDefault m1).2 (of_decide_eq_true (by with_unfolding_all rfl))).1,
    ((C8_transform_det cubeDefault m1).2 (of_decide_eq_true (by with_unfolding_all rfl))).2.1⟩

/-- A two-element edge unpacks successfully and equals the unordered
pair of the two unpacked indices. -/
theorem unpack2_ok_of_card_two {e : Edge} (h : e.card = 2) :
    ∃ a b, unpack2 e = .ok (a, b) ∧ e = {a, b} := by
  have hlen : (e.sort (· ≤ ·)).length = 2 := by
    rw [Finset.length_sort]
    exact h
  obtain ⟨a, b, hab⟩ := List.length_eq_two.mp hlen
  refine ⟨a, b, ?_, ?_⟩
  · simp [unpack2, hab]
  · have hto := Finset.sort_toFinset (· ≤ ·) e
    rw [hab] at hto
    simpa using hto.symm

/-- An edge that is not a two-element set fails the two-target unpack
with a ValueError, as Python does. -/
theorem unpack2_error_of_card_ne_two {e : Edge} (h : e.card ≠ 2) :
    unpack2 e = .error .valueError := by
  have hlen : (e.sort (· ≤ ·)).length = e.card := Finset.length_sort _
  cases hs : e.sort (· ≤ ·) with
  | nil => simp [unpack2, hs]
  | cons a t =>
    cases t with
    | nil => simp [unpack2, hs]
    | cons b t2 =>
      cases t2 with
      | nil =>
        refine absurd ?_ h
        rw [← hlen, hs]
        rfl
      | cons c t3 => simp [unpack2, hs]

/-- The edge rewrite succeeds on two-element in-range edges and computes
the same unordered pairs as the total set-image rewrite. -/
theorem rewriteLines_ok (ls : List Edge) (n : ℕ) (f : ℕ → ℕ)
    (hcard : ∀ e ∈ ls, e.card = 2) (hval : ∀ e ∈ ls, ∀ i ∈ e, i < n) :
    rewriteLines n f ls = .ok (ls.map (fun e => e.image f)) := by
  induction ls with
  | nil => simp [rewriteLines]
  | cons e rest ih =>
    obtain ⟨a, b, hok, hab⟩ := unpack2_ok_of_card_two (hcard e (List.mem_cons_self _ _))
    have ha : a < n := hval e (List.mem_cons_self _ _) a (by simp [hab])
    have hb : b < n := hval e (List.mem_cons_self _ _) b (by simp [hab])
    simp only [rewriteLines, hok]
    rw [if_pos ⟨ha, hb⟩,
      ih (fun e' he' => hcard e' (List.mem_cons_of_mem _ he'))
        (fun e' he' => hval e' (List.mem_cons_of_mem _ he')),
      List.map_cons, hab, Finset.image_insert, Finset.image_singleton]

/-- With all indices in range, the edge rewrite fails with a ValueError
as soon as some edge is not a two-element set. -/
theorem rewriteLines_error (ls : List Edge) (n : ℕ) (f : ℕ → ℕ)
    (hval : ∀ e ∈ ls, ∀ i ∈ e, i < n) (hbad : ∃ e ∈ ls, e.card ≠ 2) :
    rewriteLines n f ls = .error .valueError := by
  induction ls with
  | nil =>
    obtain ⟨e, he, _⟩ := hbad
    simp at he
  | cons e rest ih =>
    obtain ⟨e0, he0, h0⟩ := hbad
    by_cases hc : e.card = 2
    · obtain ⟨a, b, hok, hab⟩ := unpack2_ok_of_card_two hc
      have ha : a < n := hval e (List.mem_cons_self _ _) a (by simp [hab])
      have hb : b < n := hval e (List.mem_cons_self _ _) b (by simp [hab])
      have hrest : ∃ e1 ∈ rest, e1.card ≠ 2 := by
        rcases List.mem_cons.mp he0 with rfl | hmem
        · exact absurd hc h0
        · exact ⟨e0, hmem, h0⟩
      simp only [rewriteLines, hok]
      rw [if_pos ⟨ha, hb⟩, ih (fun e' he' => hval e' (List.mem_cons_of_mem _ he')) hrest]
    · simp only [rewriteLines, unpack2_error_of_card_ne_two hc]

/-- On a state with valid indices and two-element edges — the only
states where the Python rewrite cannot fail — the fallible `optimise`
completes and returns the total computation. -/
theorem optimiseE_ok {s : Shape3} (h : s.Valid) (hcard : ∀ e ∈ s.lines, e.card = 2) :
    s.optimiseE = .ok s.optimise := by
  simp only [Shape3.optimiseE]
  rw [rewriteLines_ok s.lines s.points.length _ hcard h]
  rfl

/-- On a state with valid indices, the fallible `optimise` raises a
ValueError as soon as some edge is not a two-element set. -/
theorem optimiseE_error {s : Shape3} (h : s.Valid) (hbad : ∃ e ∈ s.lines, e.card ≠ 2) :
    s.optimiseE = .error .valueError := by
  simp only [Shape3.optimiseE]
  rw [rewriteLines_error s.lines s.points.length _ h hbad]

/-- Idempotence of the total computation: after one pass the retained
points are pairwise distinct, so the second index mapping is the
identity and the edge dedup is a fixpoint. -/
theorem optimise_idem_totalized :
    ∀ s : Shape3, s.Valid → s.optimise.optimise = s.optimise := by
  intro s h
  have h1 : s.optimise.Valid := h.optimise
  rw [optimise_eq_spec _ h1]
  have hnodup : s.optimise.points.Nodup := by
    rw [optimise_points_eq]
    exact keepFirst_nodup _
  have hlnodup : s.optimise.lines.Nodup := by
    rw [optimise_lines_eq]
    exact keepFirst_nodup _
  have hid : ∀ e ∈ s.optimise.lines, e.image (specNewIndex s.optimise.points) = e := by
    intro e he
    have himg : ∀ i ∈ e, specNewIndex s.optimise.points i = i := by
      intro i hi
      have hilt : i < s.optimise.points.length := h1 e he i hi
      rw [specNewIndex, keepFirst_of_nodup hnodup, firstIdx_of_nodup hnodup hilt]
      rfl
    calc e.image (specNewIndex s.optimise.points) = e.image id := Finset.image_congr himg
      _ = e := Finset.image_id
  refine Shape3.ext ?_ ?_
  · show keepFirst s.optimise.points = s.optimise.points
    exact keepFirst_of_nodup hnodup
  · show keepFirst (s.optimise.lines.map
        (fun e => e.image (specNewIndex s.optimise.points))) = s.optimise.lines
    rw [List.map_congr_left hid, List.map_id', keepFirst_of_nodup hlnodup]

/-- C9 (amended): `optimise` is idempotent exactly on the states where
the first pass collapses no edge: for every shape state with valid
indices and two-element edges, the first application completes; when
every rewritten edge still has two indices, a second application
completes and leaves both the point list and the edge list exactly
unchanged; and when some edge collapsed to a single index, the second
application instead raises a ValueError. -/
theorem C9_optimise_idempotent :
    ∀ s : Shape3, s.Valid → (∀ e ∈ s.lines, e.card = 2) →
      s.optimiseE = .ok s.optimise
      ∧ ((∀ e ∈ s.optimise.lines, e.card = 2) →
          s.optimise.optimiseE = .ok s.optimise)
      ∧ ((∃ e ∈ s.optimise.lines, e.card ≠ 2) →
          s.optimise.optimiseE = .error .valueError) := by
  intro s h hcard
  refine ⟨optimiseE_ok h hcard, ?_, ?_⟩
  · intro h2
    rw [optimiseE_ok h.optimise h2, optimise_idem_totalized s h]
  · intro hbad
    exact optimiseE_error h.optimise hbad

/-- Counterexample to C9 as stated: on the state with points
`[v0, v0]` and the single edge `{0,1}` the first `optimise` completes,
merging the two points and collapsing the edge to the one-element set
`{0}`; applying `optimise` a second time immediately afterwards raises
a ValueError while unpacking that edge, so the second application does
not complete leaving the lists unchanged.  The last conjunct shows the
same failure on a state the program itself produces: the cube after the
zero-determinant transform with rows `(1,0,0)`, whose `transform`
already ran the first `optimise`. -/
theorem C9_counterexample :
    Shape3.optimiseE { points := [v0, v0], lines := [{0, 1}] }
        = Except.ok { points := [v0], lines := [{0}] }
    ∧ Shape3.optimiseE { points := [v0], lines := [{0}] }
        = Except.error PyErr.valueError
    ∧ (cubeDefault.transform ⟨⟨1,0,0⟩, ⟨1,0,0⟩, ⟨1,0,0⟩⟩).optimiseE
        = Except.error PyErr.valueError := by
  refine ⟨?_, ?_, ?_⟩
  all_goals with_unfolding_all rfl

/-- Witness for the amended C9 at the default cube, whose edges all
survive the first pass with two indices each. -/
theorem C9_witness :
    cubeDefault.Valid
    ∧ (∀ e ∈ cubeDefault.lines, e.card = 2)
    ∧ cubeDefault.optimiseE = .ok cubeDefault.optimise
    ∧ (∀ e ∈ cubeDefault.optimise.lines, e.card = 2)
    ∧ cubeDefault.optimise.optimiseE = .ok cubeDefault.optimise := by
  have h1 : cubeDefault.Valid := by decide
  have h2 : ∀ e ∈ cubeDefault.lines, e.card = 2 := by decide
  have h3 : ∀ e ∈ cubeDefault.optimise.lines, e.card = 2 :=
    of_decide_eq_true (by with_unfolding_all rfl)
  exact ⟨h1, h2, (C9_optimise_idempotent cubeDefault h1 h2).1, h3,
    (C9_optimise_idempotent cubeDefault h1 h2).2.1 h3⟩

/-- C10: there are a shape state and a zero-determinant transform after
which some rewritten edge is an unordered set with exactly one index,
and the draw routine's edge loop, which unpacks every edge into two
indices, fails on the resulting shape. -/
theorem C10_collapsed_edge :
    ∃ (s : Shape3) (m : Mat3),
      m.det = 0
      ∧ (∃ e ∈ (s.transform m).lines, e.card = 1)
      ∧ drawLinesLoop (s.transform m) = .error .valueError := by
  refine ⟨cubeDefault, ⟨⟨1,0,0⟩, ⟨1,0,0⟩, ⟨1,0,0⟩⟩,
    of_decide_eq_true (by with_unfolding_all rfl),
    ⟨{0}, of_decide_eq_true (by with_unfolding_all rfl), by decide⟩, ?_⟩
  with_unfolding_all rfl

/-! ### Component lemmas for the real-valued layer -/

@[simp]
theorem RVec3.addc_x (a b : RVec3) : (a + b).x = a.x + b.x := rfl

@[simp]
theorem RVec3.addc_y (a b : RVec3) : (a + b).y = a.y + b.y := rfl

@[simp]
theorem RVec3.addc_z (a b : RVec3) : (a + b).z = a.z + b.z := rfl

@[simp]
theorem RVec3.subc_x (a b : RVec3) : (a - b).x = a.x - b.x := rfl

@[simp]
theorem RVec3.subc_y (a b : RVec3) : (a - b).y = a.y - b.y := rfl

@[simp]
theorem RVec3.subc_z (a b : RVec3) : (a - b).z = a.z - b.z := rfl

@[simp]
theorem RVec3.hmul_x (v : RVec3) (r : ℝ) : (v * r).x = v.x * r := rfl

@[simp]
theorem RVec3.hmul_y (v : RVec3) (r : ℝ) : (v * r).y = v.y * r := rfl

@[simp]
theorem RVec3.hmul_z (v : RVec3) (r : ℝ) : (v * r).z = v.z * r := rfl

@[simp]
theorem RVec2.add2_x (a b : RVec2) : (a + b).x = a.x + b.x := rfl

@[simp]
theorem RVec2.add2_y (a b : RVec2) : (a + b).y = a.y + b.y := rfl

/-! ### Claim theorems for the camera / rendering layer -/

/-- C4: the claim says the draw cycle should skip polygon rendering for
a shape exposing no face data and complete drawing only edges; the code
instead reads the `faces` attribute, which no shape variant defines, so
the draw cycle stops with an attribute error for every shape. -/
theorem C4_draw_faces_attribute_error :
    ∀ s : Shape3, s.faces? = none ∧ drawFacesThenLines s = .error .attributeError :=
  fun _ => ⟨rfl, rfl⟩

/-- C5: for a key not in the binding table while unpaused, the movement
handler is a graceful no-op, but the turn handler hits the raw `(0,0)`
fallback and raises a type error instead of defaulting to a zero
vector. -/
theorem C5_unmapped_key :
    move_input false Camera.init 'x' = .ok Camera.init
    ∧ turn_input false Camera.init 'x' = .error .typeError := by
  have hkey : KEY_BINDINGS 'x' = none := rfl
  have hmove : Camera.init.move ⟨0, 0, 0⟩ = Camera.init := by
    refine Camera.ext ?_ rfl rfl rfl
    show Camera.init.pos + (⟨0, 0, 0⟩ : RVec3) * Camera.init.speed = Camera.init.pos
    refine RVec3.ext ?_ ?_ ?_ <;> simp
  constructor
  · simp only [move_input, Bool.false_eq_true, if_false, hkey, hmove]
  · simp only [turn_input, Bool.false_eq_true, if_false, hkey]

/-- C6: with view y-component exactly zero both derived angles are the
constant π; with nonzero view y-component `x_rotation_angle` is
`atan(view.z / view.y)` and `z_rotation_angle` is
`atan(view.x / view.y)`; and both angles are functions of the current
view vector alone (recomputed, never cached). -/
theorem C6_rotation_angles :
    ∀ c : Camera,
      (c.view.y = 0 → c.x_rotation_angle = Real.pi ∧ c.z_rotation_angle = Real.pi)
      ∧ (c.view.y ≠ 0 →
          c.x_rotation_angle = Real.arctan (c.view.z / c.view.y)
          ∧ c.z_rotation_angle = Real.arctan (c.view.x / c.view.y))
      ∧ (∀ c' : Camera, c'.view = c.view →
          c'.x_rotation_angle = c.x_rotation_angle
          ∧ c'.z_rotation_angle = c.z_rotation_angle) := by
  intro c
  refine ⟨?_, ?_, ?_⟩
  · intro h
    constructor <;>
      simp [Camera.x_rotation_angle, Camera.z_rotation_angle, Camera.x, Camera.y,
        Camera.z, h]
  · intro h
    constructor <;>
      simp [Camera.x_rotation_angle, Camera.z_rotation_angle, Camera.x, Camera.y,
        Camera.z, h]
  · intro c' h
    constructor <;>
      simp [Camera.x_rotation_angle, Camera.z_rotation_angle, Camera.x, Camera.y,
        Camera.z, h]

/-- Witness for C6 at the default camera (view `(0,1,0)`). -/
theorem C6_witness :
    Camera.init.view.y ≠ 0
    ∧ Camera.init.x_rotation_angle = Real.arctan (Camera.init.view.z / Camera.init.view.y)
    ∧ Camera.init.z_rotation_angle
        = Real.arctan (Camera.init.view.x / Camera.init.view.y) := by
  have h : Camera.init.view.y ≠ 0 := by norm_num [Camera.init]
  exact ⟨h, ((C6_rotation_angles Camera.init).2.1 h).1,
    ((C6_rotation_angles Camera.init).2.1 h).2⟩

/-- C1: with the camera's view y-component nonzero and the rotated
camera-relative vector of nonzero length, `projection` returns
`centre + (800 * v.x / len(v), -800 * v.z / len(v))` where `v` is the
point translated by `-camera.pos` and passed through the x-rotator then
the z-rotator. -/
theorem C1_projection_formula :
    ∀ (p : RVec3) (c : Camera) (centre : RVec2) (vp : RVec3),
      vp = (z_rotator c.z_rotation_angle).mulVec
            ((x_rotator c.x_rotation_angle).mulVec (p - c.pos)) →
      c.view.y ≠ 0 →
      vp.length ≠ 0 →
      projection p c centre
        = centre + ⟨800 * vp.x / vp.length, -800 * vp.z / vp.length⟩ := by
  intro p c centre vp hvp hy hlen
  subst hvp
  refine RVec2.ext ?_ ?_ <;>
    simp only [projection, RMat23.mulVec, RVec3.dot, RVec2.add2_x, RVec2.add2_y] <;>
    field_simp <;>
    ring

/-- Witness for C1: camera at the default pose, point `(0,-7,0)`
straight ahead, screen centre `(683,372)`; the rotated relative vector
is `(0,3,0)` with length `3 ≠ 0`. -/
theorem C1_witness :
    (⟨0, 3, 0⟩ : RVec3) = (z_rotator Camera.init.z_rotation_angle).mulVec
        ((x_rotator Camera.init.x_rotation_angle).mulVec
          ((⟨0, -7, 0⟩ : RVec3) - Camera.init.pos))
    ∧ Camera.init.view.y ≠ 0
    ∧ (⟨0, 3, 0⟩ : RVec3).length ≠ 0
    ∧ projection ⟨0, -7, 0⟩ Camera.init ⟨683, 372⟩
        = (⟨683, 372⟩ : RVec2)
          + ⟨800 * (⟨0, 3, 0⟩ : RVec3).x / (⟨0, 3, 0⟩ : RVec3).length,
             -800 * (⟨0, 3, 0⟩ : RVec3).z / (⟨0, 3, 0⟩ : RVec3).length⟩ := by
  have hang_x : Camera.init.x_rotation_angle = 0 := by
    simp [Camera.x_rotation_angle, Camera.y, Camera.z, Camera.init, Real.arctan_zero]
  have hang_z : Camera.init.z_rotation_angle = 0 := by
    simp [Camera.z_rotation_angle, Camera.x, Camera.y, Camera.init, Real.arctan_zero]
  have h1 : (⟨0, 3, 0⟩ : RVec3) = (z_rotator Camera.init.z_rotation_angle).mulVec
      ((x_rotator Camera.init.x_rotation_angle).mulVec
        ((⟨0, -7, 0⟩ : RVec3) - Camera.init.pos)) := by
    rw [hang_x, hang_z]
    refine RVec3.ext ?_ ?_ ?_
    all_goals
      simp [z_rotator, x_rotator, RMat3.mulVec, RVec3.dot, Camera.init,
        Real.cos_zero, Real.sin_zero]
    all_goals norm_num
  have h2 : Camera.init.view.y ≠ 0 := by norm_num [Camera.init]
  have h3 : (⟨0, 3, 0⟩ : RVec3).length ≠ 0 := by
    have hpos : (0 : ℝ) < (⟨0, 3, 0⟩ : RVec3).length := by
      rw [RVec3.length]
      apply Real.sqrt_pos.mpr
      norm_num
    exact ne_of_gt hpos
  exact ⟨h1, h2, h3, C1_projection_formula ⟨0, -7, 0⟩ Camera.init ⟨683, 372⟩ ⟨0, 3, 0⟩ h1 h2 h3⟩

end Spinny
